import Mathlib

/-!
Verification of the core geometric engine of fastuidraw's FilledPath
(`src/fastuidraw/painter/filled_path.cpp`).

The C++ source is shallowly embedded: coordinates become exact rationals
(`ℚ`), the integer grid becomes `ℤ`, boundary-flag bitsets become `Nat`
bit masks, the mutable point table of `PointHoard` becomes explicit state
passing, and the GLU-tess callback protocol becomes folds over the lists
of delivered data.  Every definition follows the corresponding C++
function line by line; deviations (e.g. replacing the fp64 `sqrt`
comparison by an equivalent exact squared comparison) are noted at the
definition.
-/

namespace FilledPath

/-! ### Constants (`SubsetConstants`, `CoordinateConverterConstants`) -/

/-- `CoordinateConverterConstants::log2_box_dim`. -/
def log2_box_dim : Nat := 24

/-- `CoordinateConverterConstants::box_dim = 1 << log2_box_dim`. -/
def box_dim : ℤ := 2 ^ log2_box_dim

/-- `CoordinateConverterConstants::min_height = double(1u << 7u)`. -/
def min_height : ℤ := 2 ^ 7

/-- The fudge offset `2^-negative_log2_fudge = 2^-20` of
`CoordinateConverter::m_delta_fudge`, as an exact rational. -/
def fudge_delta : ℚ := 1 / 2 ^ 20

/-! ### Boundary flags (`SubContourPoint` enum) -/

/-- `SubContourPoint::on_min_x_boundary`. -/
def on_min_x_boundary : Nat := 1

/-- `SubContourPoint::on_max_x_boundary`. -/
def on_max_x_boundary : Nat := 2

/-- `SubContourPoint::on_min_y_boundary`. -/
def on_min_y_boundary : Nat := 4

/-- `SubContourPoint::on_max_y_boundary`. -/
def on_max_y_boundary : Nat := 8

/-- `SubContourPoint::corner`: the switch on `b & 15` mapping the four
two-bit corner masks to the cyclic corner order
`minx_miny = 0, minx_maxy = 1, maxx_maxy = 2, maxx_miny = 3`; every other
mask is `not_corner`, modelled as `none`. -/
def corner (b : Nat) : Option (ZMod 4) :=
  match b &&& 15 with
  | 5 => some 0
  | 9 => some 1
  | 10 => some 2
  | 6 => some 3
  | _ => none

/-- `SubContourPoint::next_corner`: `(c + 1) % 4`. -/
def next_corner (c : ZMod 4) : ZMod 4 := c + 1

/-- `SubContourPoint::boundary_progress`: `0` when either flag set is not
a corner, `-1` when the first corner is the successor of the second,
`+1` when the second is the successor of the first, else `0`. -/
def boundary_progress (b0 b1 : Nat) : ℤ :=
  match corner b0, corner b1 with
  | some c0, some c1 =>
      if c0 = next_corner c1 then -1
      else if c1 = next_corner c0 then 1
      else 0
  | _, _ => 0

/-! ### Points (`fastuidraw::dvec2`, `SubContourPoint`) -/

/-- A double-precision point, embedded as an exact rational pair with the
`pt[coord]` indexing used throughout `filled_path.cpp`. -/
structure Dvec2 where
  x : ℚ
  y : ℚ
deriving DecidableEq, Repr

/-- `pt[c]` component access (coordinate `0` is x, anything else y). -/
def Dvec2.get (p : Dvec2) (c : Nat) : ℚ :=
  if c = 0 then p.x else p.y

/-- Functional update of component `c`. -/
def Dvec2.set (p : Dvec2) (c : Nat) (v : ℚ) : Dvec2 :=
  if c = 0 then ⟨v, p.y⟩ else ⟨p.x, v⟩

/-- `SubContourPoint`: a point together with its boundary-flag bitset. -/
structure SCP where
  pt : Dvec2
  flags : Nat
deriving DecidableEq, Repr

/-! ### `SubPath::compute_spit_point` and `SubPath::split_contour` -/

/-- `SubPath::compute_spit_point`: interpolate the crossing of segment
`a b` with the line `coordinate = splitting_value`.  Division is rational
division (the callers only use it when the two endpoints straddle the
splitting value strictly, so the denominator is nonzero). -/
def compute_spit_point (a b : Dvec2) (splitting_coordinate : Nat)
    (splitting_value : ℚ) : Dvec2 :=
  let n : ℚ := splitting_value - a.get splitting_coordinate
  let d : ℚ := b.get splitting_coordinate - a.get splitting_coordinate
  let t : ℚ := n / d
  let aa : ℚ := a.get (1 - splitting_coordinate)
  let bb : ℚ := b.get (1 - splitting_coordinate)
  (Dvec2.set ⟨0, 0⟩ splitting_coordinate splitting_value).set
    (1 - splitting_coordinate) ((1 - t) * aa + t * bb)

/-- Boundary flags given to the crossing point pushed onto `C0`
(the `≤ splitting_value` half):
`new_flag | (~remove_flag & pt.flags() & prev_pt.flags())` with
`new_flag = on_max_{x,y}` and `remove_flag = on_min_{x,y}`. -/
def split_flags_C0 (splitting_coordinate : Nat) (prevF ptF : Nat) : Nat :=
  let new_flag := if splitting_coordinate = 0 then on_max_x_boundary else on_max_y_boundary
  let remove_flag := if splitting_coordinate = 0 then on_min_x_boundary else on_min_y_boundary
  new_flag ||| ((15 ^^^ remove_flag) &&& ptF &&& prevF)

/-- Boundary flags given to the crossing point pushed onto `C1`
(the `≥ splitting_value` half): as `split_flags_C0` but with
`new_flag = on_min_{x,y}` and `remove_flag = on_max_{x,y}`. -/
def split_flags_C1 (splitting_coordinate : Nat) (prevF ptF : Nat) : Nat :=
  let new_flag := if splitting_coordinate = 0 then on_min_x_boundary else on_min_y_boundary
  let remove_flag := if splitting_coordinate = 0 then on_max_x_boundary else on_max_y_boundary
  new_flag ||| ((15 ^^^ remove_flag) &&& ptF &&& prevF)

/-- One iteration of the loop body of `SubPath::split_contour`: given the
previous point and the current point, the lists of points appended to
`C0` and to `C1` for this edge. -/
def split_step (splitting_coordinate : Nat) (splitting_value : ℚ)
    (prev_pt pt : SCP) : List SCP × List SCP :=
  let prev_b0 := prev_pt.pt.get splitting_coordinate ≤ splitting_value
  let b0 := pt.pt.get splitting_coordinate ≤ splitting_value
  let prev_b1 := prev_pt.pt.get splitting_coordinate ≥ splitting_value
  let b1 := pt.pt.get splitting_coordinate ≥ splitting_value
  let split_pt := compute_spit_point prev_pt.pt pt.pt splitting_coordinate splitting_value
  let c0 : List SCP :=
    (if prev_b0 ≠ b0 then
      [⟨split_pt, split_flags_C0 splitting_coordinate prev_pt.flags pt.flags⟩]
     else []) ++ (if b0 then [pt] else [])
  let c1 : List SCP :=
    (if prev_b1 ≠ b1 then
      [⟨split_pt, split_flags_C1 splitting_coordinate prev_pt.flags pt.flags⟩]
     else []) ++ (if b1 then [pt] else [])
  (c0, c1)

/-- `SubPath::split_contour`: walk the contour cyclically (the previous
point starts at `src.back()`), appending the output of `split_step` for
each edge to the two halves. -/
def split_contour (src : List SCP) (splitting_coordinate : Nat)
    (splitting_value : ℚ) : List SCP × List SCP :=
  match src.getLast? with
  | none => ([], [])
  | some last =>
    let f := fun (acc : SCP × List SCP × List SCP) (pt : SCP) =>
      let (prev_pt, c0, c1) := acc
      let (d0, d1) := split_step splitting_coordinate splitting_value prev_pt pt
      (pt, c0 ++ d0, c1 ++ d1)
    let r := src.foldl f (last, [], [])
    (r.2.1, r.2.2)

/-- Bit position of the `on_min` flag for splitting coordinate `sc`
(`on_min_x_boundary = 2^0`, `on_min_y_boundary = 2^2`). -/
def min_flag_bit (sc : Nat) : Nat := if sc = 0 then 0 else 2

/-- Bit position of the `on_max` flag for splitting coordinate `sc`
(`on_max_x_boundary = 2^1`, `on_max_y_boundary = 2^3`). -/
def max_flag_bit (sc : Nat) : Nat := if sc = 0 then 1 else 3

/-- The crossing-point flags predicted by the spec sentence behind claim
C1, following the spec words: the UNION of the boundary flags of the two
endpoints, minus the removed flag, plus the new flag.  (The code uses the
intersection instead; this definition exists only to be compared against
the code's `split_flags_C0`/`split_flags_C1`.) -/
def spec_union_crossing_flags (prevF ptF remove_flag new_flag : Nat) : Nat :=
  new_flag ||| ((15 ^^^ remove_flag) &&& (prevF ||| ptF))

/-- Bit-level description of `new ||| ((15 ^^^ remove) &&& ptF &&& prevF)`
for single-bit `new = 2^nb`, `remove = 2^rb` with `nb, rb < 4`. -/
theorem testBit_crossing_flags (nb rb : Nat) (hnb : nb < 4) (hrb : rb < 4)
    (prevF ptF i : Nat) :
    ((2 ^ nb) ||| ((15 ^^^ 2 ^ rb) &&& ptF &&& prevF)).testBit i ↔
      (i = nb ∨ (prevF.testBit i ∧ ptF.testBit i ∧ i ≠ rb ∧ i < 4)) := by
  rcases Nat.lt_or_ge i 4 with hi | hi
  · interval_cases nb <;> interval_cases rb <;> interval_cases i <;>
      simp [Nat.testBit_or, Nat.testBit_and] <;> tauto
  · have hp : ∀ m : Nat, m < 16 → Nat.testBit m i = false := fun m hm =>
      Nat.testBit_lt_two_pow (lt_of_lt_of_le hm
        (le_trans (by norm_num) (Nat.pow_le_pow_right (by norm_num) hi)))
    have h1 : Nat.testBit (2 ^ nb) i = false := by
      refine hp _ ?_
      calc 2 ^ nb ≤ 2 ^ 3 := Nat.pow_le_pow_right (by norm_num) (by omega)
        _ < 16 := by norm_num
    have h2 : Nat.testBit (15 ^^^ 2 ^ rb) i = false := by
      refine hp _ ?_
      have h16 : (2 : Nat) ^ 4 = 16 := by norm_num
      have hb8 : (2 : Nat) ^ rb ≤ 8 := by
        calc (2 : Nat) ^ rb ≤ 2 ^ 3 := Nat.pow_le_pow_right (by norm_num) (by omega)
          _ = 8 := by norm_num
      have hxor := Nat.xor_lt_two_pow (show (15 : Nat) < 2 ^ 4 by norm_num)
        (show (2 : Nat) ^ rb < 2 ^ 4 by omega)
      omega
    simp [Nat.testBit_or, Nat.testBit_and, h1, h2]
    omega

/-- C1 (amended).  For every splitting coordinate, splitting value and
pair of cyclically-consecutive contour points that strictly straddle the
splitting line, the loop body of `SubPath::split_contour` emits the
interpolated crossing point first into both halves, and its flags are the
INTERSECTION of the two endpoints' boundary flags, minus the flag removed
on that side (`on_min` for the `≤` half, `on_max` for the `≥` half), plus
the new flag introduced by the splitting line (`on_max` for the `≤` half,
`on_min` for the `≥` half). -/
theorem split_contour_crossing_flags (sc : Nat) (hsc : sc < 2) (s : ℚ)
    (prev_pt pt : SCP)
    (hstraddle : (prev_pt.pt.get sc < s ∧ s < pt.pt.get sc) ∨
                 (pt.pt.get sc < s ∧ s < prev_pt.pt.get sc)) :
    (split_step sc s prev_pt pt).1.head? =
      some ⟨compute_spit_point prev_pt.pt pt.pt sc s,
            split_flags_C0 sc prev_pt.flags pt.flags⟩ ∧
    (split_step sc s prev_pt pt).2.head? =
      some ⟨compute_spit_point prev_pt.pt pt.pt sc s,
            split_flags_C1 sc prev_pt.flags pt.flags⟩ ∧
    (∀ i, (split_flags_C0 sc prev_pt.flags pt.flags).testBit i ↔
      (i = max_flag_bit sc ∨ (prev_pt.flags.testBit i ∧ pt.flags.testBit i ∧
        i ≠ min_flag_bit sc ∧ i < 4))) ∧
    (∀ i, (split_flags_C1 sc prev_pt.flags pt.flags).testBit i ↔
      (i = min_flag_bit sc ∨ (prev_pt.flags.testBit i ∧ pt.flags.testBit i ∧
        i ≠ max_flag_bit sc ∧ i < 4))) := by
  have heads :
      (split_step sc s prev_pt pt).1.head? =
        some ⟨compute_spit_point prev_pt.pt pt.pt sc s,
              split_flags_C0 sc prev_pt.flags pt.flags⟩ ∧
      (split_step sc s prev_pt pt).2.head? =
        some ⟨compute_spit_point prev_pt.pt pt.pt sc s,
              split_flags_C1 sc prev_pt.flags pt.flags⟩ := by
    rcases hstraddle with ⟨h1, h2⟩ | ⟨h1, h2⟩ <;>
      simp [split_step, h1.le, h2.le, not_le.mpr h1, not_le.mpr h2]
  refine ⟨heads.1, heads.2, ?_, ?_⟩ <;> intro i
  · have h0 : split_flags_C0 sc prev_pt.flags pt.flags =
        (2 ^ max_flag_bit sc) |||
          ((15 ^^^ 2 ^ min_flag_bit sc) &&& pt.flags &&& prev_pt.flags) := by
      interval_cases sc <;>
        simp [split_flags_C0, max_flag_bit, min_flag_bit,
              on_max_x_boundary, on_min_x_boundary,
              on_max_y_boundary, on_min_y_boundary]
    rw [h0]
    exact testBit_crossing_flags _ _
      (by unfold max_flag_bit; split <;> norm_num)
      (by unfold min_flag_bit; split <;> norm_num) _ _ _
  · have h1 : split_flags_C1 sc prev_pt.flags pt.flags =
        (2 ^ min_flag_bit sc) |||
          ((15 ^^^ 2 ^ max_flag_bit sc) &&& pt.flags &&& prev_pt.flags) := by
      interval_cases sc <;>
        simp [split_flags_C1, max_flag_bit, min_flag_bit,
              on_max_x_boundary, on_min_x_boundary,
              on_max_y_boundary, on_min_y_boundary]
    rw [h1]
    exact testBit_crossing_flags _ _
      (by unfold min_flag_bit; split <;> norm_num)
      (by unfold max_flag_bit; split <;> norm_num) _ _ _

/-- Witness for `split_contour_crossing_flags` at the contour edge from
`(-1,0)` (flags `on_min_y`) to `(1,0)` (no flags), split on `x = 0`. -/
theorem split_contour_crossing_flags_witness :
    (split_step 0 0 ⟨⟨-1, 0⟩, 4⟩ ⟨⟨1, 0⟩, 0⟩).1.head? = some ⟨⟨0, 0⟩, 2⟩ ∧
    (split_step 0 0 ⟨⟨-1, 0⟩, 4⟩ ⟨⟨1, 0⟩, 0⟩).2.head? = some ⟨⟨0, 0⟩, 1⟩ := by
  have h := split_contour_crossing_flags 0 (by norm_num) 0
    ⟨⟨-1, 0⟩, 4⟩ ⟨⟨1, 0⟩, 0⟩
    (Or.inl ⟨by norm_num [Dvec2.get], by norm_num [Dvec2.get]⟩)
  refine ⟨h.1.trans ?_, h.2.1.trans ?_⟩ <;>
    norm_num [compute_spit_point, Dvec2.get, Dvec2.set,
              split_flags_C0, split_flags_C1,
              on_max_x_boundary, on_min_x_boundary]

/-- C1 counterexample.  On the contour `[((-1,0), on_min_y), ((1,0), ∅)]`
split against `x = 0`, the crossing point emitted into the `x ≥ 0` half
carries flags `on_min_x = 1`, not the flags predicted by the claim's
union rule with its example direction (`min_x` cleared, `max_x` added),
which would be `6`. -/
theorem split_contour_union_counterexample :
    ¬ (((split_contour [⟨⟨-1, 0⟩, 4⟩, ⟨⟨1, 0⟩, 0⟩] 0 0).2.map SCP.flags).head? =
        some (spec_union_crossing_flags 4 0 on_min_x_boundary on_max_x_boundary)) := by
  norm_num [split_contour, split_step, compute_spit_point, Dvec2.get, Dvec2.set,
            split_flags_C0, split_flags_C1, spec_union_crossing_flags,
            on_max_x_boundary, on_min_x_boundary]
  decide

/-! ### `PointHoard::ContourPoint` and `PointHoard::unloop_contour` -/

/-- `PointHoard::ContourPoint`: a vertex index into the point table plus
the boundary flags it was fetched with. -/
structure CP where
  m_vertex : Nat
  m_flags : Nat
deriving DecidableEq, Repr

/-- The inner loop of `PointHoard::unloop_contour` for one value of
`looking_for = v`: scan the rest of the contour; each time an element
with vertex `v` is found, the accumulated segment `cur` (which starts at
the previous occurrence of `v`) is emitted as a separate contour and the
scan restarts from the found occurrence.  Returns the emitted loops and
the remaining segment (last occurrence of `v` plus the trailing
elements), exactly as the iterator-erasing C++ loop leaves `C`. -/
def extractLoopsAux (v : Nat) (cur : List CP) :
    List CP → List (List CP) × List CP
  | [] => ([], cur)
  | q :: rest =>
      if q.m_vertex = v then
        let r := extractLoopsAux v [q] rest
        (cur :: r.1, r.2)
      else
        extractLoopsAux v (cur ++ [q]) rest

theorem extractLoopsAux_snd_length (v : Nat) :
    ∀ (l cur : List CP),
      (extractLoopsAux v cur l).2.length ≤ cur.length + l.length := by
  intro l
  induction l with
  | nil => intro cur; simp [extractLoopsAux]
  | cons q rest ih =>
      intro cur
      by_cases h : q.m_vertex = v <;> simp [extractLoopsAux, h]
      · have := ih [q]
        simp at this
        omega
      · have := ih (cur ++ [q])
        simp at this
        omega

/-- The outer loop of `PointHoard::unloop_contour`: `done` is the prefix
of `C` already scanned past (it stays in `C`), `todo` the rest.  For each
element the inner loop extracts the loops of its vertex; the element the
iterator ends on is kept and scanning resumes after it.  At the end the
remaining contour (if non-empty) is emitted last. -/
def unloopGo (done todo : List CP) : List (List CP) :=
  match todo with
  | [] => if done.isEmpty then [] else [done]
  | e :: rest =>
    match hr : (extractLoopsAux e.m_vertex [e] rest).2 with
    | [] => (extractLoopsAux e.m_vertex [e] rest).1
    | e2 :: rest2 =>
        (extractLoopsAux e.m_vertex [e] rest).1 ++ unloopGo (done ++ [e2]) rest2
termination_by todo.length
decreasing_by
  have hlen := extractLoopsAux_snd_length q.m_vertex rest [q]
  rw [hr] at hlen
  simp at hlen ⊢
  omega

/-- `PointHoard::unloop_contour`. -/
def unloop_contour (C : List CP) : List (List CP) :=
  unloopGo [] C

/-- A contour is simple when no vertex index repeats in it. -/
def contour_simple (c : List CP) : Prop :=
  (c.map CP.m_vertex).Nodup

instance (c : List CP) : Decidable (contour_simple c) := by
  unfold contour_simple
  infer_instance

/-- The input precondition of claim C2: no two cyclically consecutive
vertex indices of the contour are equal. -/
def cyclic_adjacent_distinct (c : List CP) : Prop :=
  let vs := c.map CP.m_vertex
  ∀ p ∈ vs.zip (vs.rotate 1), p.1 ≠ p.2

instance (c : List CP) : Decidable (cyclic_adjacent_distinct c) := by
  unfold cyclic_adjacent_distinct
  exact List.decidableBAll _ _

/-- The failing input for claim C2: vertices `0,1,2,1,0,3`, no two
cyclically consecutive equal. -/
def exLoopContour : List CP :=
  [⟨0, 0⟩, ⟨1, 0⟩, ⟨2, 0⟩, ⟨1, 0⟩, ⟨0, 0⟩, ⟨3, 0⟩]

/-- C2 evaluated at the failing input: `unloop_contour` on the contour
`0,1,2,1,0,3` (which satisfies the claim's precondition) emits the
contour `0,1,2,1`, in which vertex `1` occurs twice — contradicting the
function's own comment that each extracted range "has no loops itself"
(the inner loop only scans for repeats of `looking_for`, so a repeat of
a different vertex inside the extracted range survives). -/
theorem unloop_contour_emits_loop :
    cyclic_adjacent_distinct exLoopContour ∧
    unloop_contour exLoopContour =
      [[⟨0, 0⟩, ⟨1, 0⟩, ⟨2, 0⟩, ⟨1, 0⟩], [⟨0, 0⟩, ⟨3, 0⟩]] ∧
    ¬ contour_simple [⟨0, 0⟩, ⟨1, 0⟩, ⟨2, 0⟩, ⟨1, 0⟩] := by
  refine ⟨by decide, ?_, by decide⟩
  simp [unloop_contour, exLoopContour, unloopGo, extractLoopsAux]

/-! ### `PointHoard::reduce_contour` -/

/-- The accumulation loop of `PointHoard::reduce_contour`: starting from
`prev` (initially `C.back()`), add `boundary_progress` of each edge;
`none` models the early `return 0` on a zero-progress edge. -/
def reduceLoop (prev : CP) (bcount : ℤ) : List CP → Option ℤ
  | [] => some bcount
  | q :: rest =>
      let r := boundary_progress prev.m_flags q.m_flags
      if r = 0 then none else reduceLoop q (bcount + r) rest

/-- `PointHoard::reduce_contour`: returns the winding contribution and
the contour contents after the call (the C++ mutates `C` in place; here
the second component is the contour left behind).  `-bcount / 4` uses
truncating integer division exactly as C++ does. -/
def reduce_contour (C : List CP) : ℤ × List CP :=
  if C.length ≤ 2 then (0, [])
  else
    match C.getLast? with
    | none => (0, [])
    | some last =>
      match reduceLoop last 0 C with
      | none => (0, C)
      | some bcount => (-bcount / 4, [])

/-- The cyclically consecutive pairs `(prev, q)` visited by the loops of
`reduce_contour` and `contour_is_reducable`: `prev` starts at `C.back()`. -/
def cyclicSteps (C : List CP) : List (CP × CP) :=
  match C.getLast? with
  | none => []
  | some last => (last :: C).zip C

theorem corner_step (d : ℤ) (hd : d = 1 ∨ d = -1) (b0 b1 : Nat)
    (h : boundary_progress b0 b1 = d) :
    ∃ c0, corner b0 = some c0 ∧ corner b1 = some (c0 + (d : ZMod 4)) := by
  unfold boundary_progress at h
  cases h0 : corner b0 <;> cases h1 : corner b1 <;> rw [h0, h1] at h <;>
    simp only at h
  · exact absurd h.symm (by rcases hd with rfl | rfl <;> decide)
  · exact absurd h.symm (by rcases hd with rfl | rfl <;> decide)
  · exact absurd h.symm (by rcases hd with rfl | rfl <;> decide)
  · rename_i c0 c1
    rcases hd with rfl | rfl
    · split at h
      · exact absurd h (by decide)
      · split at h
        · rename_i h2
          refine ⟨c0, rfl, ?_⟩
          rw [h2]
          norm_num [next_corner]
        · exact absurd h (by decide)
    · split at h
      · rename_i h2
        refine ⟨c0, rfl, ?_⟩
        rw [next_corner] at h2
        rw [h2]
        push_cast
        ring_nf
      · split at h
        · exact absurd h (by decide)
        · exact absurd h (by decide)

theorem reduceLoop_all_d (d : ℤ) (hd : d ≠ 0) :
    ∀ (l : List CP) (prev : CP) (b : ℤ),
      (∀ pr ∈ (prev :: l).zip l,
        boundary_progress pr.1.m_flags pr.2.m_flags = d) →
      reduceLoop prev b l = some (b + l.length * d) := by
  intro l
  induction l with
  | nil => intro prev b _; simp [reduceLoop]
  | cons q rest ih =>
      intro prev b hs
      rw [List.zip_cons_cons] at hs
      have h1 : boundary_progress prev.m_flags q.m_flags = d :=
        hs (prev, q) (List.mem_cons_self _ _)
      have ht : ∀ pr ∈ (q :: rest).zip rest,
          boundary_progress pr.1.m_flags pr.2.m_flags = d :=
        fun pr hpr => hs pr (List.mem_cons_of_mem _ hpr)
      rw [reduceLoop]
      simp only [h1, if_neg hd]
      rw [ih q (b + d) ht]
      congr 1
      simp only [List.length_cons]
      push_cast
      ring

theorem reduceLoop_zero_step :
    ∀ (l : List CP) (prev : CP) (b : ℤ),
      (∃ pr ∈ (prev :: l).zip l,
        boundary_progress pr.1.m_flags pr.2.m_flags = 0) →
      reduceLoop prev b l = none := by
  intro l
  induction l with
  | nil => intro prev b h; simp at h
  | cons q rest ih =>
      intro prev b h
      rw [List.zip_cons_cons] at h
      rw [reduceLoop]
      by_cases h1 : boundary_progress prev.m_flags q.m_flags = 0
      · simp [h1]
      · simp only [if_neg h1]
        refine ih q (b + boundary_progress prev.m_flags q.m_flags) ?_
        rcases h with ⟨pr, hpr, hz⟩
        rcases List.mem_cons.mp hpr with rfl | h4
        · exact absurd hz h1
        · exact ⟨pr, h4, hz⟩

theorem corner_chain (d : ℤ) (hd : d = 1 ∨ d = -1) :
    ∀ (l : List CP) (prev : CP),
      (∀ pr ∈ (prev :: l).zip l,
        boundary_progress pr.1.m_flags pr.2.m_flags = d) →
      ∀ cp, corner prev.m_flags = some cp →
        corner (l.getLastD prev).m_flags =
          some (cp + (l.length : ZMod 4) * (d : ZMod 4)) := by
  intro l
  induction l with
  | nil => intro prev _ cp hcp; simpa using hcp
  | cons q rest ih =>
      intro prev hs cp hcp
      rw [List.zip_cons_cons] at hs
      have h1 : boundary_progress prev.m_flags q.m_flags = d :=
        hs (prev, q) (List.mem_cons_self _ _)
      obtain ⟨c0, hc0, hc1⟩ := corner_step d hd _ _ h1
      rw [hcp] at hc0
      obtain rfl : cp = c0 := by injection hc0
      have ht : ∀ pr ∈ (q :: rest).zip rest,
          boundary_progress pr.1.m_flags pr.2.m_flags = d :=
        fun pr hpr => hs pr (List.mem_cons_of_mem _ hpr)
      have hrec := ih q ht _ hc1
      rw [List.getLastD_cons, hrec]
      congr 1
      simp only [List.length_cons]
      push_cast
      ring

/-- C3.  For a contour of more than two points all of whose cyclic edges
make boundary progress `d` (the same nonzero direction), `reduce_contour`
empties the contour and returns `-(N·d)/4` where `N` is the point count
(and `N·d` is always a multiple of 4, so the division is exact); while if
any cyclic edge has zero boundary progress, the contour is left unchanged
and the contribution is `0`. -/
theorem reduce_contour_spec (C : List CP) (hlen : 2 < C.length) :
    (∀ d, (d = 1 ∨ d = -1) →
      (∀ pr ∈ cyclicSteps C,
        boundary_progress pr.1.m_flags pr.2.m_flags = d) →
      reduce_contour C = (-((C.length : ℤ) * d) / 4, []) ∧
        (4 : ℤ) ∣ (C.length : ℤ) * d) ∧
    ((∃ pr ∈ cyclicSteps C,
        boundary_progress pr.1.m_flags pr.2.m_flags = 0) →
      reduce_contour C = (0, C)) := by
  obtain ⟨last, hlast⟩ : ∃ last, C.getLast? = some last := by
    cases C with
    | nil => simp at hlen
    | cons a l => exact ⟨_, List.getLast?_cons⟩
  have hC : cyclicSteps C = (last :: C).zip C := by
    rw [cyclicSteps, hlast]
  constructor
  · intro d hd hsteps
    rw [hC] at hsteps
    have hd0 : d ≠ 0 := by rcases hd with rfl | rfl <;> decide
    have hloop := reduceLoop_all_d d hd0 C last 0 hsteps
    have hdvd : (4 : ℤ) ∣ (C.length : ℤ) * d := by
      obtain ⟨q, rest, rfl⟩ : ∃ q rest, C = q :: rest := by
        cases C with
        | nil => simp at hlen
        | cons a l => exact ⟨a, l, rfl⟩
      have h1 : boundary_progress last.m_flags q.m_flags = d := by
        have := hsteps (last, q)
        simp [List.zip] at this
        exact this
      obtain ⟨c0, hc0, _⟩ := corner_step d hd _ _ h1
      have hchain := corner_chain d hd (q :: rest) last hsteps c0 hc0
      have hgl : ((q :: rest : List CP).getLastD last) = last := by
        rw [List.getLastD_eq_getLast?, hlast]
        rfl
      rw [hgl, hc0] at hchain
      have hz : ((q :: rest : List CP).length : ZMod 4) * (d : ZMod 4) = 0 := by
        have := Option.some.inj hchain
        have h2 : c0 + ((q :: rest : List CP).length : ZMod 4) * (d : ZMod 4) = c0 + 0 := by
          rw [add_zero]
          exact this.symm
        exact add_left_cancel h2
      have : (((q :: rest : List CP).length * d : ℤ) : ZMod 4) = 0 := by
        push_cast
        push_cast at hz
        exact hz
      exact (ZMod.intCast_zmod_eq_zero_iff_dvd _ 4).mp this
    refine ⟨?_, hdvd⟩
    rw [reduce_contour, if_neg (by omega), hlast]
    simp [hloop]
  · intro hz
    rw [hC] at hz
    have hloop := reduceLoop_zero_step C last 0 hz
    rw [reduce_contour, if_neg (by omega), hlast]
    simp [hloop]

/-- Witness for `reduce_contour_spec`: the four-corner contour traversed
in increasing corner order is erased and contributes `-1`. -/
theorem reduce_contour_spec_witness :
    reduce_contour [⟨0, 5⟩, ⟨1, 9⟩, ⟨2, 10⟩, ⟨3, 6⟩] = (-1, []) ∧
    (4 : ℤ) ∣ ((4 : ℕ) : ℤ) * 1 := by
  have h := (reduce_contour_spec [⟨0, 5⟩, ⟨1, 9⟩, ⟨2, 10⟩, ⟨3, 6⟩]
    (by decide)).1 1 (Or.inl rfl) (by decide)
  exact ⟨h.1.trans (by decide), h.2⟩

/-! ### `tesser::temp_verts_non_degenerate_triangle` and
`tesser::vertex_callBack` -/

/-- `FASTUIDRAW_GLU_nullptr_CLIENT_ID`.  Modelled from the spec: the
GLU-tess header is not under `src/`; the spec only requires a
distinguished sentinel id, which for a 32-bit unsigned id is `~0u`. -/
def GLU_nullptr_CLIENT_ID : Nat := 4294967295

/-- Lookup of `PointHoard::ipt(v)` in the integer point table. -/
def iptOf (ipts : List (ℤ × ℤ)) (v : Nat) : ℤ × ℤ :=
  ipts.getD v (0, 0)

/-- `tesser::temp_verts_non_degenerate_triangle` on the three cached
vertex ids.  The C++ compares `two_area < min_height * sqrt(dot(e, e))`
in fp64 for each edge `e`; both sides are nonnegative, so the comparison
is embedded exactly as the equivalent comparison of squares
`two_area² < min_height² * dot(e, e)`. -/
def temp_verts_non_degenerate_triangle
    (ipts : List (ℤ × ℤ)) (v0 v1 v2 : Nat) : Bool :=
  if v0 = v1 ∨ v0 = v2 ∨ v1 = v2 then false
  else
    let p0 := iptOf ipts v0
    let p1 := iptOf ipts v1
    let p2 := iptOf ipts v2
    let v : ℤ × ℤ := (p1.1 - p0.1, p1.2 - p0.2)
    let w : ℤ × ℤ := (p2.1 - p0.1, p2.2 - p0.2)
    let twice_area : ℤ := |v.1 * w.2 - v.2 * w.1|
    if twice_area = 0 then false
    else
      let u : ℤ × ℤ := (p2.1 - p1.1, p2.2 - p1.2)
      if twice_area ^ 2 < min_height ^ 2 * (v.1 * v.1 + v.2 * v.2) ∨
         twice_area ^ 2 < min_height ^ 2 * (w.1 * w.1 + w.2 * w.2) ∨
         twice_area ^ 2 < min_height ^ 2 * (u.1 * u.1 + u.2 * u.2) then false
      else true

/-- The state mutated by `tesser::vertex_callBack`: the partial
three-vertex cache `m_temp_verts`/`m_temp_vert_count`, the current
winding component's triangle index list, and `m_triangulation_failed`. -/
structure TesserVertexState where
  temp_verts : List Nat
  triangles : List Nat
  failed : Bool
deriving DecidableEq, Repr

/-- `tesser::vertex_callBack`: set the failure flag on the sentinel,
cache the id; once three are cached, append them to the triangle list
iff none is the sentinel and the triangle is non-degenerate. -/
def vertex_callBack (ipts : List (ℤ × ℤ)) (st : TesserVertexState)
    (vertex_id : Nat) : TesserVertexState :=
  let failed := st.failed || (vertex_id == GLU_nullptr_CLIENT_ID)
  let temp := st.temp_verts ++ [vertex_id]
  if temp.length = 3 then
    let v0 := temp.getD 0 0
    let v1 := temp.getD 1 0
    let v2 := temp.getD 2 0
    if v0 ≠ GLU_nullptr_CLIENT_ID ∧ v1 ≠ GLU_nullptr_CLIENT_ID ∧
       v2 ≠ GLU_nullptr_CLIENT_ID ∧
       temp_verts_non_degenerate_triangle ipts v0 v1 v2 then
      ⟨[], st.triangles ++ [v0, v1, v2], failed⟩
    else
      ⟨[], st.triangles, failed⟩
  else
    ⟨temp, st.triangles, failed⟩

/-- The non-degeneracy test spelled out geometrically: pairwise-distinct
ids, nonzero integer cross product, and twice-the-area at least
`min_height` times each edge length (as the equivalent comparison of
squares). -/
theorem non_degenerate_iff (ipts : List (ℤ × ℤ)) (a b c : Nat) :
    temp_verts_non_degenerate_triangle ipts a b c = true ↔
      (a ≠ b ∧ a ≠ c ∧ b ≠ c ∧
       ((iptOf ipts b).1 - (iptOf ipts a).1) * ((iptOf ipts c).2 - (iptOf ipts a).2) -
         ((iptOf ipts b).2 - (iptOf ipts a).2) * ((iptOf ipts c).1 - (iptOf ipts a).1) ≠ 0 ∧
       min_height ^ 2 *
           (((iptOf ipts b).1 - (iptOf ipts a).1) * ((iptOf ipts b).1 - (iptOf ipts a).1) +
            ((iptOf ipts b).2 - (iptOf ipts a).2) * ((iptOf ipts b).2 - (iptOf ipts a).2)) ≤
         (|((iptOf ipts b).1 - (iptOf ipts a).1) * ((iptOf ipts c).2 - (iptOf ipts a).2) -
            ((iptOf ipts b).2 - (iptOf ipts a).2) * ((iptOf ipts c).1 - (iptOf ipts a).1)|) ^ 2 ∧
       min_height ^ 2 *
           (((iptOf ipts c).1 - (iptOf ipts a).1) * ((iptOf ipts c).1 - (iptOf ipts a).1) +
            ((iptOf ipts c).2 - (iptOf ipts a).2) * ((iptOf ipts c).2 - (iptOf ipts a).2)) ≤
         (|((iptOf ipts b).1 - (iptOf ipts a).1) * ((iptOf ipts c).2 - (iptOf ipts a).2) -
            ((iptOf ipts b).2 - (iptOf ipts a).2) * ((iptOf ipts c).1 - (iptOf ipts a).1)|) ^ 2 ∧
       min_height ^ 2 *
           (((iptOf ipts c).1 - (iptOf ipts b).1) * ((iptOf ipts c).1 - (iptOf ipts b).1) +
            ((iptOf ipts c).2 - (iptOf ipts b).2) * ((iptOf ipts c).2 - (iptOf ipts b).2)) ≤
         (|((iptOf ipts b).1 - (iptOf ipts a).1) * ((iptOf ipts c).2 - (iptOf ipts a).2) -
            ((iptOf ipts b).2 - (iptOf ipts a).2) * ((iptOf ipts c).1 - (iptOf ipts a).1)|) ^ 2) := by
  unfold temp_verts_non_degenerate_triangle
  dsimp only
  split_ifs with h1 h2 h3
  · simp only [Bool.false_eq_true, false_iff]
    intro h
    exact absurd h1 (by tauto)
  · simp only [Bool.false_eq_true, false_iff]
    rw [abs_eq_zero] at h2
    intro h
    exact absurd h2 h.2.2.2.1
  · simp only [Bool.false_eq_true, false_iff]
    intro h
    rcases h3 with hs | hs | hs <;>
      exact absurd hs (not_lt.mpr (by tauto))
  · simp only [true_iff]
    push_neg at h1 h3
    exact ⟨h1.1, h1.2.1, h1.2.2, fun h => h2 (by rw [h, abs_zero]),
      h3.1, h3.2.1, h3.2.2⟩

/-- Running `vertex_callBack` three times from an empty cache: the
triangle is appended exactly when the code's acceptance condition holds. -/
theorem vertex_callBack_run (ipts : List (ℤ × ℤ))
    (st : TesserVertexState) (hst : st.temp_verts = []) (a b c : Nat) :
    (vertex_callBack ipts (vertex_callBack ipts (vertex_callBack ipts st a) b) c).triangles
      = st.triangles ++
        (if a ≠ GLU_nullptr_CLIENT_ID ∧ b ≠ GLU_nullptr_CLIENT_ID ∧
            c ≠ GLU_nullptr_CLIENT_ID ∧
            temp_verts_non_degenerate_triangle ipts a b c = true
         then [a, b, c] else []) := by
  have h1 : vertex_callBack ipts st a =
      ⟨[a], st.triangles, st.failed || (a == GLU_nullptr_CLIENT_ID)⟩ := by
    rw [vertex_callBack, hst]
    simp
  rw [h1]
  have h2 : vertex_callBack ipts
      ⟨[a], st.triangles, st.failed || (a == GLU_nullptr_CLIENT_ID)⟩ b =
      ⟨[a, b], st.triangles,
        (st.failed || (a == GLU_nullptr_CLIENT_ID)) || (b == GLU_nullptr_CLIENT_ID)⟩ := by
    rw [vertex_callBack]
    simp
  rw [h2, vertex_callBack]
  simp only [List.cons_append, List.nil_append, List.length_cons, List.length_nil,
    if_true]
  simp only [List.getD_cons_zero, List.getD_cons_succ]
  split_ifs with hacc
  · rfl
  · simp

/-- C4.  Starting with an empty vertex cache, delivering the three ids
`a b c` appends the triangle to the component's list iff no id is the
sentinel, the ids are pairwise distinct, the integer cross product of the
edge vectors is nonzero, and twice the area is at least
`min_height = 2^7` times each edge length (each altitude is at least
`2^7` grid units; the comparison is stated with squares, both sides of
`2A ≥ 2^7·len` being nonnegative); otherwise the triangle list is left
unchanged. -/
theorem vertex_callBack_spec (ipts : List (ℤ × ℤ))
    (st : TesserVertexState) (hst : st.temp_verts = []) (a b c : Nat) :
    ((vertex_callBack ipts (vertex_callBack ipts (vertex_callBack ipts st a) b) c).triangles
        = st.triangles ++ [a, b, c] ↔
      (a ≠ GLU_nullptr_CLIENT_ID ∧ b ≠ GLU_nullptr_CLIENT_ID ∧
       c ≠ GLU_nullptr_CLIENT_ID ∧ a ≠ b ∧ a ≠ c ∧ b ≠ c ∧
       ((iptOf ipts b).1 - (iptOf ipts a).1) * ((iptOf ipts c).2 - (iptOf ipts a).2) -
         ((iptOf ipts b).2 - (iptOf ipts a).2) * ((iptOf ipts c).1 - (iptOf ipts a).1) ≠ 0 ∧
       min_height ^ 2 *
           (((iptOf ipts b).1 - (iptOf ipts a).1) * ((iptOf ipts b).1 - (iptOf ipts a).1) +
            ((iptOf ipts b).2 - (iptOf ipts a).2) * ((iptOf ipts b).2 - (iptOf ipts a).2)) ≤
         (|((iptOf ipts b).1 - (iptOf ipts a).1) * ((iptOf ipts c).2 - (iptOf ipts a).2) -
            ((iptOf ipts b).2 - (iptOf ipts a).2) * ((iptOf ipts c).1 - (iptOf ipts a).1)|) ^ 2 ∧
       min_height ^ 2 *
           (((iptOf ipts c).1 - (iptOf ipts a).1) * ((iptOf ipts c).1 - (iptOf ipts a).1) +
            ((iptOf ipts c).2 - (iptOf ipts a).2) * ((iptOf ipts c).2 - (iptOf ipts a).2)) ≤
         (|((iptOf ipts b).1 - (iptOf ipts a).1) * ((iptOf ipts c).2 - (iptOf ipts a).2) -
            ((iptOf ipts b).2 - (iptOf ipts a).2) * ((iptOf ipts c).1 - (iptOf ipts a).1)|) ^ 2 ∧
       min_height ^ 2 *
           (((iptOf ipts c).1 - (iptOf ipts b).1) * ((iptOf ipts c).1 - (iptOf ipts b).1) +
            ((iptOf ipts c).2 - (iptOf ipts b).2) * ((iptOf ipts c).2 - (iptOf ipts b).2)) ≤
         (|((iptOf ipts b).1 - (iptOf ipts a).1) * ((iptOf ipts c).2 - (iptOf ipts a).2) -
            ((iptOf ipts b).2 - (iptOf ipts a).2) * ((iptOf ipts c).1 - (iptOf ipts a).1)|) ^ 2)) ∧
    (¬ (a ≠ GLU_nullptr_CLIENT_ID ∧ b ≠ GLU_nullptr_CLIENT_ID ∧
        c ≠ GLU_nullptr_CLIENT_ID ∧
        temp_verts_non_degenerate_triangle ipts a b c = true) →
      (vertex_callBack ipts (vertex_callBack ipts (vertex_callBack ipts st a) b) c).triangles
        = st.triangles) := by
  have hrun := vertex_callBack_run ipts st hst a b c
  constructor
  · rw [hrun]
    by_cases hacc : a ≠ GLU_nullptr_CLIENT_ID ∧ b ≠ GLU_nullptr_CLIENT_ID ∧
        c ≠ GLU_nullptr_CLIENT_ID ∧
        temp_verts_non_degenerate_triangle ipts a b c = true
    · rw [if_pos hacc]
      simp only [true_iff]
      have := (non_degenerate_iff ipts a b c).mp hacc.2.2.2
      exact ⟨hacc.1, hacc.2.1, hacc.2.2.1, this.1, this.2.1, this.2.2.1,
        this.2.2.2.1, this.2.2.2.2.1, this.2.2.2.2.2.1, this.2.2.2.2.2.2⟩
    · rw [if_neg hacc]
      simp only [List.append_nil]
      constructor
      · intro h
        exfalso
        have := congrArg List.length h
        simp at this
      · intro h
        refine absurd ⟨h.1, h.2.1, h.2.2.1, ?_⟩ hacc
        rw [non_degenerate_iff]
        exact ⟨h.2.2.2.1, h.2.2.2.2.1, h.2.2.2.2.2.1, h.2.2.2.2.2.2.1,
          h.2.2.2.2.2.2.2.1, h.2.2.2.2.2.2.2.2.1, h.2.2.2.2.2.2.2.2.2⟩
  · intro hacc
    rw [hrun, if_neg hacc, List.append_nil]

/-- Witness for `vertex_callBack_spec`: the right triangle with legs
`2^20` on the grid is accepted. -/
theorem vertex_callBack_spec_witness :
    (vertex_callBack [(0, 0), (1048576, 0), (0, 1048576)]
      (vertex_callBack [(0, 0), (1048576, 0), (0, 1048576)]
        (vertex_callBack [(0, 0), (1048576, 0), (0, 1048576)] ⟨[], [], false⟩ 0) 1)
      2).triangles = [0, 1, 2] := by
  have h := vertex_callBack_spec [(0, 0), (1048576, 0), (0, 1048576)]
    ⟨[], [], false⟩ rfl 0 1 2
  refine ((h.1).mpr ?_).trans (by simp)
  exact ⟨by decide, by decide, by decide, by decide, by decide, by decide,
    by decide, by decide, by decide, by decide⟩

/-! ### `builder::fill_indices` -/

/-- `is_even` from the anonymous namespace: `(v % 2) == 0` (C++ `%` on a
negative operand yields `0` or `-1`, so the test agrees with parity). -/
def is_even (v : ℤ) : Bool := v % 2 == 0

/-- The indices of the components of odd winding, flattened in component
(map key) order. -/
def odd_flat (hoard : List (ℤ × List Nat)) : List Nat :=
  ((hoard.filter (fun e => !(e.1 == 0) && !(is_even e.1))).map Prod.snd).flatten

/-- The indices of the components of even nonzero winding, flattened in
component order. -/
def even_nonzero_flat (hoard : List (ℤ × List Nat)) : List Nat :=
  ((hoard.filter (fun e => !(e.1 == 0) && is_even e.1)).map Prod.snd).flatten

/-- The indices of the components of winding zero, flattened in
component order. -/
def zero_flat (hoard : List (ℤ × List Nat)) : List Nat :=
  ((hoard.filter (fun e => e.1 == 0)).map Prod.snd).flatten

/-- `builder::fill_indices`: one pass over the winding-component map (in
key order), writing each component's triangle indices at its class
cursor — modelled by accumulating the three classes in order and then
laying the buffer out as odd ++ even-nonzero ++ zero.  Returns the flat
index buffer, `even_non_zero_start` and `zero_start`. -/
def fill_indices (hoard : List (ℤ × List Nat)) : List Nat × Nat × Nat :=
  let buckets := hoard.foldl
    (fun (acc : List Nat × List Nat × List Nat) e =>
      if e.1 = 0 then (acc.1, acc.2.1, acc.2.2 ++ e.2)
      else if is_even e.1 then (acc.1, acc.2.1 ++ e.2, acc.2.2)
      else (acc.1 ++ e.2, acc.2.1, acc.2.2))
    ([], [], [])
  (buckets.1 ++ buckets.2.1 ++ buckets.2.2,
   buckets.1.length, buckets.1.length + buckets.2.1.length)

theorem fill_indices_foldl (hoard : List (ℤ × List Nat)) :
    ∀ (o e z : List Nat),
      hoard.foldl
        (fun (acc : List Nat × List Nat × List Nat) q =>
          if q.1 = 0 then (acc.1, acc.2.1, acc.2.2 ++ q.2)
          else if is_even q.1 then (acc.1, acc.2.1 ++ q.2, acc.2.2)
          else (acc.1 ++ q.2, acc.2.1, acc.2.2))
        (o, e, z) =
      (o ++ odd_flat hoard, e ++ even_nonzero_flat hoard, z ++ zero_flat hoard) := by
  induction hoard with
  | nil => intro o e z; simp [odd_flat, even_nonzero_flat, zero_flat]
  | cons q rest ih =>
      intro o e z
      rw [List.foldl_cons]
      by_cases h0 : q.1 = 0
      · rw [if_pos h0, ih]
        simp [odd_flat, even_nonzero_flat, zero_flat, List.filter_cons, h0]
      · rw [if_neg h0]
        by_cases he : is_even q.1
        · rw [if_pos he, ih]
          simp [odd_flat, even_nonzero_flat, zero_flat, List.filter_cons, h0, he]
        · rw [if_neg he, ih]
          simp [odd_flat, even_nonzero_flat, zero_flat, List.filter_cons, h0,
            he, Bool.not_eq_true]

/-- C5.  `fill_indices` lays the buffer out as the three contiguous
ranges odd, even-nonzero, zero (in that order); the returned
`even_non_zero_start` and `zero_start` are their boundaries, so the
nonzero fill (prefix up to `zero_start`), the odd-even fill (prefix up
to `even_non_zero_start`), the complement-odd-even fill (suffix from
`even_non_zero_start`) and the complement-nonzero fill (suffix from
`zero_start`) are each a contiguous sub-range. -/
theorem fill_indices_spec (hoard : List (ℤ × List Nat)) :
    (fill_indices hoard).1 =
      odd_flat hoard ++ even_nonzero_flat hoard ++ zero_flat hoard ∧
    (fill_indices hoard).2.1 = (odd_flat hoard).length ∧
    (fill_indices hoard).2.2 =
      (odd_flat hoard).length + (even_nonzero_flat hoard).length ∧
    (fill_indices hoard).1.take (fill_indices hoard).2.2 =
      odd_flat hoard ++ even_nonzero_flat hoard ∧
    (fill_indices hoard).1.take (fill_indices hoard).2.1 = odd_flat hoard ∧
    (fill_indices hoard).1.drop (fill_indices hoard).2.1 =
      even_nonzero_flat hoard ++ zero_flat hoard ∧
    (fill_indices hoard).1.drop (fill_indices hoard).2.2 = zero_flat hoard := by
  have hfi : fill_indices hoard =
      (odd_flat hoard ++ even_nonzero_flat hoard ++ zero_flat hoard,
       (odd_flat hoard).length,
       (odd_flat hoard).length + (even_nonzero_flat hoard).length) := by
    rw [fill_indices, fill_indices_foldl hoard [] [] []]
    simp
  rw [hfi]
  refine ⟨rfl, rfl, rfl, ?_, ?_, ?_, ?_⟩
  · exact List.take_left' (by simp)
  · rw [List.append_assoc]
    exact List.take_left' rfl
  · rw [List.append_assoc]
    exact List.drop_left' rfl
  · exact List.drop_left' (by simp)

/-! ### `PointHoard::fetch_corner` and the fallback in `builder::builder` -/

/-- The mutable point table of `PointHoard`: the deduplication map
`m_map : ipt → index`, the fp64 points `m_pts` and the integer points
`m_ipts`. -/
structure PH where
  m_map : List ((ℤ × ℤ) × Nat)
  m_pts : List Dvec2
  m_ipts : List (ℤ × ℤ)

/-- The integer point of a corner of the grid: `(1,1)` with each
coordinate replaced by `box_dim + 1` on its max side. -/
def corner_ipt (is_max_x is_max_y : Bool) : ℤ × ℤ :=
  (if is_max_x then box_dim + 1 else 1, if is_max_y then box_dim + 1 else 1)

/-- `PointHoard::fetch_corner`: look the corner's integer point up in the
deduplication map; on a miss append the corner's fp64 point (built from
the converter bounds) and integer point and record the new index. -/
def fetch_corner (pmin pmax : Dvec2) (st : PH) (is_max_x is_max_y : Bool) :
    Nat × PH :=
  let ipt := corner_ipt is_max_x is_max_y
  let P : Dvec2 := ⟨if is_max_x then pmax.x else pmin.x,
                    if is_max_y then pmax.y else pmin.y⟩
  match st.m_map.find? (fun e => e.1 == ipt) with
  | some e => (e.2, st)
  | none =>
      let idx := st.m_pts.length
      (idx, ⟨(ipt, idx) :: st.m_map, st.m_pts ++ [P], st.m_ipts ++ [ipt]⟩)

/-- Well-formedness of the point table: the parallel arrays have equal
length and every map entry indexes its own integer point. -/
def PH.wf (st : PH) : Prop :=
  st.m_pts.length = st.m_ipts.length ∧
  ∀ e ∈ st.m_map, e.2 < st.m_ipts.length ∧ st.m_ipts.getD e.2 (0, 0) = e.1

theorem fetch_corner_wf (pmin pmax : Dvec2) (st : PH) (mx my : Bool)
    (h : st.wf) : ((fetch_corner pmin pmax st mx my).2).wf := by
  rw [fetch_corner]
  cases hf : st.m_map.find? (fun e => e.1 == corner_ipt mx my) with
  | some e => exact h
  | none =>
      refine ⟨by simp [h.1], ?_⟩
      intro e he
      rcases List.mem_cons.mp he with rfl | hmem
      · refine ⟨by simp [h.1], ?_⟩
        have hlen : st.m_pts.length = st.m_ipts.length := h.1
        rw [hlen]
        rw [List.getD_eq_getElem?_getD, List.getElem?_concat_length]
        rfl
      · obtain ⟨hlt, hval⟩ := h.2 e hmem
        refine ⟨by simp; omega, ?_⟩
        rw [List.getD_append _ _ _ _ hlt]
        exact hval

theorem fetch_corner_post (pmin pmax : Dvec2) (st : PH) (mx my : Bool)
    (h : st.wf) :
    (fetch_corner pmin pmax st mx my).1 <
        ((fetch_corner pmin pmax st mx my).2).m_ipts.length ∧
    ((fetch_corner pmin pmax st mx my).2).m_ipts.getD
        (fetch_corner pmin pmax st mx my).1 (0, 0) = corner_ipt mx my ∧
    ((fetch_corner pmin pmax st mx my).2).m_map.find?
        (fun e => e.1 == corner_ipt mx my) =
      some (corner_ipt mx my, (fetch_corner pmin pmax st mx my).1) := by
  rw [fetch_corner]
  cases hf : st.m_map.find? (fun e => e.1 == corner_ipt mx my) with
  | some e =>
      have hp := List.find?_some hf
      have hkey : e.1 = corner_ipt mx my := by
        simpa using hp
      have hmem := List.mem_of_find?_eq_some hf
      obtain ⟨hlt, hval⟩ := h.2 e hmem
      refine ⟨hlt, by rw [hval, hkey], ?_⟩
      rw [hf]
      congr 1
      rw [← hkey]
  | none =>
      have hlen : st.m_pts.length = st.m_ipts.length := h.1
      refine ⟨by simp [hlen], ?_, ?_⟩
      · rw [hlen]
        rw [List.getD_eq_getElem?_getD, List.getElem?_concat_length]
        rfl
      · rw [List.find?_cons_of_pos _ (by simp)]

theorem fetch_corner_grow (pmin pmax : Dvec2) (st : PH) (mx my : Bool) :
    st.m_ipts.length ≤ ((fetch_corner pmin pmax st mx my).2).m_ipts.length := by
  rw [fetch_corner]
  cases hf : st.m_map.find? (fun e => e.1 == corner_ipt mx my) <;> simp

theorem fetch_corner_preserve_getD (pmin pmax : Dvec2) (st : PH)
    (mx my : Bool) (i : Nat) (hi : i < st.m_ipts.length) :
    ((fetch_corner pmin pmax st mx my).2).m_ipts.getD i (0, 0) =
      st.m_ipts.getD i (0, 0) := by
  rw [fetch_corner]
  cases hf : st.m_map.find? (fun e => e.1 == corner_ipt mx my) with
  | some e => rfl
  | none => exact List.getD_append _ _ _ _ hi

theorem fetch_corner_preserve_find (pmin pmax : Dvec2) (st : PH)
    (mx my : Bool) (k : ℤ × ℤ) (hk : k ≠ corner_ipt mx my) :
    ((fetch_corner pmin pmax st mx my).2).m_map.find? (fun e => e.1 == k) =
      st.m_map.find? (fun e => e.1 == k) := by
  rw [fetch_corner]
  cases hf : st.m_map.find? (fun e => e.1 == corner_ipt mx my) with
  | some e => rfl
  | none =>
      refine List.find?_cons_of_neg _ ?_
      simp
      exact fun h => absurd h.symm hk

theorem fetch_corner_hit (pmin pmax : Dvec2) (st : PH) (mx my : Bool)
    (j : Nat)
    (hfind : st.m_map.find? (fun e => e.1 == corner_ipt mx my) =
      some (corner_ipt mx my, j)) :
    fetch_corner pmin pmax st mx my = (j, st) := by
  rw [fetch_corner, hfind]

/-- The tail of `builder::builder`: purge winding components whose
triangle list is empty; if none remain, install a single component at
`winding_offset` holding the bounding rectangle as two triangles over
the four corner indices fetched through `fetch_corner`, in the call
order of the C++ constructor. -/
def builder_fallback (pmin pmax : Dvec2) (winding_offset : ℤ)
    (hoard : List (ℤ × List Nat)) (st : PH) :
    List (ℤ × List Nat) × PH :=
  let purged := hoard.filter (fun e => !e.2.isEmpty)
  if purged.isEmpty then
    let r0 := fetch_corner pmin pmax st true true
    let r1 := fetch_corner pmin pmax r0.2 true false
    let r2 := fetch_corner pmin pmax r1.2 false false
    let r3 := fetch_corner pmin pmax r2.2 true true
    let r4 := fetch_corner pmin pmax r3.2 false false
    let r5 := fetch_corner pmin pmax r4.2 false true
    ([(winding_offset, [r0.1, r1.1, r2.1, r3.1, r4.1, r5.1])], r5.2)
  else (purged, st)

/-- C6.  After the purge, the component map is never empty and no
component has an empty triangle list; and when every component of the
triangulation had an empty triangle list, exactly one component is
synthesized, keyed at `winding_offset`, whose six indices form the two
triangles `[i0, i1, i2]`, `[i0, i2, i3]` over the four pairwise-distinct
corner indices of the bounding rectangle. -/
theorem builder_fallback_spec (pmin pmax : Dvec2) (wo : ℤ)
    (hoard : List (ℤ × List Nat)) (st : PH) (hwf : st.wf) :
    ((builder_fallback pmin pmax wo hoard st).1 ≠ [] ∧
      ∀ e ∈ (builder_fallback pmin pmax wo hoard st).1, e.2 ≠ []) ∧
    ((∀ e ∈ hoard, e.2 = []) →
      ∃ i0 i1 i2 i3,
        (builder_fallback pmin pmax wo hoard st).1 =
          [(wo, [i0, i1, i2, i0, i2, i3])] ∧
        ((builder_fallback pmin pmax wo hoard st).2).m_ipts.getD i0 (0, 0) =
          corner_ipt true true ∧
        ((builder_fallback pmin pmax wo hoard st).2).m_ipts.getD i1 (0, 0) =
          corner_ipt true false ∧
        ((builder_fallback pmin pmax wo hoard st).2).m_ipts.getD i2 (0, 0) =
          corner_ipt false false ∧
        ((builder_fallback pmin pmax wo hoard st).2).m_ipts.getD i3 (0, 0) =
          corner_ipt false true ∧
        i0 ≠ i1 ∧ i0 ≠ i2 ∧ i0 ≠ i3 ∧ i1 ≠ i2 ∧ i1 ≠ i3 ∧ i2 ≠ i3) := by
  have hkey_tf_tt : corner_ipt true false ≠ corner_ipt true true := by decide
  have hkey_ff_tt : corner_ipt false false ≠ corner_ipt true true := by decide
  have hkey_ff_tf : corner_ipt false false ≠ corner_ipt true false := by decide
  have hkey_ft_tt : corner_ipt false true ≠ corner_ipt true true := by decide
  have hkey_ft_tf : corner_ipt false true ≠ corner_ipt true false := by decide
  have hkey_ft_ff : corner_ipt false true ≠ corner_ipt false false := by decide
  simp only [builder_fallback]
  by_cases hempty : (hoard.filter (fun e => !e.2.isEmpty)).isEmpty
  · rw [if_pos hempty]
    -- name the chain of states
    set r0 := fetch_corner pmin pmax st true true with hr0
    set r1 := fetch_corner pmin pmax r0.2 true false with hr1
    set r2 := fetch_corner pmin pmax r1.2 false false with hr2
    have hwf0 := fetch_corner_wf pmin pmax st true true hwf
    have hwf1 := fetch_corner_wf pmin pmax r0.2 true false hwf0
    have hwf2 := fetch_corner_wf pmin pmax r1.2 false false hwf1
    obtain ⟨hlt0, hv0, hfind0⟩ := fetch_corner_post pmin pmax st true true hwf
    obtain ⟨hlt1, hv1, hfind1⟩ := fetch_corner_post pmin pmax r0.2 true false hwf0
    obtain ⟨hlt2, hv2, hfind2⟩ := fetch_corner_post pmin pmax r1.2 false false hwf1
    -- the repeated corners hit the map and leave the state unchanged
    have hfind0in2 : r2.2.m_map.find? (fun e => e.1 == corner_ipt true true) =
        some (corner_ipt true true, r0.1) := by
      rw [hr2, fetch_corner_preserve_find pmin pmax r1.2 false false _ hkey_ff_tt.symm]
      rw [hr1, fetch_corner_preserve_find pmin pmax r0.2 true false _ hkey_tf_tt.symm]
      exact hfind0
    have hr3 : fetch_corner pmin pmax r2.2 true true = (r0.1, r2.2) :=
      fetch_corner_hit pmin pmax r2.2 true true r0.1 hfind0in2
    have hr4 : fetch_corner pmin pmax r2.2 false false = (r2.1, r2.2) :=
      fetch_corner_hit pmin pmax r2.2 false false r2.1 hfind2
    rw [hr3]
    dsimp only
    rw [hr4]
    dsimp only
    set r5 := fetch_corner pmin pmax r2.2 false true with hr5
    have hwf5 := fetch_corner_wf pmin pmax r2.2 false true hwf2
    obtain ⟨hlt5, hv5, _⟩ := fetch_corner_post pmin pmax r2.2 false true hwf2
    -- index bounds propagate forward
    have hlt0in1 : r0.1 < r1.2.m_ipts.length :=
      lt_of_lt_of_le hlt0 (fetch_corner_grow pmin pmax r0.2 true false)
    have hlt0in2 : r0.1 < r2.2.m_ipts.length :=
      lt_of_lt_of_le hlt0in1 (fetch_corner_grow pmin pmax r1.2 false false)
    have hlt1in2 : r1.1 < r2.2.m_ipts.length :=
      lt_of_lt_of_le hlt1 (fetch_corner_grow pmin pmax r1.2 false false)
    -- integer-point values in the final state
    have hv0f : r5.2.m_ipts.getD r0.1 (0, 0) = corner_ipt true true := by
      rw [hr5, fetch_corner_preserve_getD pmin pmax r2.2 false true _ hlt0in2]
      rw [hr2, fetch_corner_preserve_getD pmin pmax r1.2 false false _ hlt0in1]
      rw [hr1, fetch_corner_preserve_getD pmin pmax r0.2 true false _ hlt0]
      exact hv0
    have hv1f : r5.2.m_ipts.getD r1.1 (0, 0) = corner_ipt true false := by
      rw [hr5, fetch_corner_preserve_getD pmin pmax r2.2 false true _ hlt1in2]
      rw [hr2, fetch_corner_preserve_getD pmin pmax r1.2 false false _ hlt1]
      exact hv1
    have hv2f : r5.2.m_ipts.getD r2.1 (0, 0) = corner_ipt false false := by
      rw [hr5, fetch_corner_preserve_getD pmin pmax r2.2 false true _ hlt2]
      exact hv2
    refine ⟨⟨by simp, ?_⟩, ?_⟩
    · intro e he
      rcases List.mem_singleton.mp he with rfl
      simp
    · intro _
      refine ⟨r0.1, r1.1, r2.1, r5.1, rfl, hv0f, hv1f, hv2f, hv5, ?_, ?_, ?_, ?_, ?_, ?_⟩
      · intro h
        rw [h, hv1f] at hv0f
        exact hkey_tf_tt hv0f
      · intro h
        rw [h, hv2f] at hv0f
        exact hkey_ff_tt hv0f
      · intro h
        rw [h, hv5] at hv0f
        exact hkey_ft_tt hv0f
      · intro h
        rw [h, hv2f] at hv1f
        exact hkey_ff_tf hv1f
      · intro h
        rw [h, hv5] at hv1f
        exact hkey_ft_tf hv1f
      · intro h
        rw [h, hv5] at hv2f
        exact hkey_ft_ff hv2f
  · rw [if_neg hempty]
    dsimp only
    refine ⟨⟨?_, ?_⟩, ?_⟩
    · intro h
      rw [h] at hempty
      exact hempty rfl
    · intro e he
      have := List.of_mem_filter he
      simpa using this
    · intro hall
      exfalso
      refine hempty ?_
      rw [List.isEmpty_iff, List.filter_eq_nil_iff]
      intro e he
      simp [hall e he]

/-- Witness for `builder_fallback_spec` at an empty point table and a
hoard whose single component has no triangles. -/
theorem builder_fallback_spec_witness :
    (builder_fallback ⟨0, 0⟩ ⟨1, 1⟩ 3 [(5, [])] ⟨[], [], []⟩).1 ≠ [] :=
  (builder_fallback_spec ⟨0, 0⟩ ⟨1, 1⟩ 3 [(5, [])] ⟨[], [], []⟩
    ⟨rfl, by simp⟩).1.1

/-! ### `PointHoard::apply` and the vertex delivery of
`tesser::add_contour` / `tesser::add_path` -/

/-- `PointHoard::apply(I, fudge_count)` on the integer point `ipt`:
offset each coordinate by `fudge_count · δ`, the sign per axis chosen
toward the center of the grid (`-` when the coordinate is at least
`box_dim / 2`). -/
def applyPt (ipt : ℤ × ℤ) (fudge_count : Nat) : ℚ × ℚ :=
  let fudge_r : ℚ := (fudge_count : ℚ) * fudge_delta
  ((ipt.1 : ℚ) + (if ipt.1 ≥ box_dim / 2 then -fudge_r else fudge_r),
   (ipt.2 : ℚ) + (if ipt.2 ≥ box_dim / 2 then -fudge_r else fudge_r))

/-- `tesser::add_contour`: deliver each contour vertex through
`PointHoard::apply`, incrementing `m_point_count` per vertex. -/
def deliverContour (ipts : List (ℤ × ℤ)) (k : Nat) :
    List Nat → List (ℚ × ℚ)
  | [] => []
  | v :: rest => applyPt (iptOf ipts v) k :: deliverContour ipts (k + 1) rest

/-- `tesser::add_path`: deliver the contours in order; the fudge count
carries across contours. -/
def deliverPath (ipts : List (ℤ × ℤ)) (k : Nat) :
    List (List Nat) → List (ℚ × ℚ)
  | [] => []
  | c :: cs => deliverContour ipts k c ++ deliverPath ipts (k + c.length) cs

theorem fudge_lt_one (k : Nat) (hk : k < 2 ^ 20) :
    (k : ℚ) * fudge_delta < 1 := by
  rw [fudge_delta]
  rw [mul_one_div, div_lt_one (by positivity)]
  exact_mod_cast hk

/-- One coordinate of two deliveries with distinct fudge counts whose
sum is below `2^20` cannot coincide: integer coordinates are at least 1
apart while fudge offsets stay strictly inside a unit, and equal integer
coordinates get the same sign with distinct offsets. -/
theorem fudge_coord_inj (a b : ℤ) (k k2 : Nat) (hk : k ≠ k2)
    (hsum : k + k2 < 2 ^ 20)
    (hx : (a : ℚ) +
        (if a ≥ box_dim / 2 then -((k : ℚ) * fudge_delta)
         else (k : ℚ) * fudge_delta) =
      (b : ℚ) +
        (if b ≥ box_dim / 2 then -((k2 : ℚ) * fudge_delta)
         else (k2 : ℚ) * fudge_delta)) : False := by
  have hδ : (0 : ℚ) < fudge_delta := by norm_num [fudge_delta]
  have hf1 : (k : ℚ) * fudge_delta < 1 := fudge_lt_one k (by omega)
  have hf2 : (k2 : ℚ) * fudge_delta < 1 := fudge_lt_one k2 (by omega)
  have hg1 : (0 : ℚ) ≤ (k : ℚ) * fudge_delta := by positivity
  have hg2 : (0 : ℚ) ≤ (k2 : ℚ) * fudge_delta := by positivity
  have hkq : (k : ℚ) * fudge_delta ≠ (k2 : ℚ) * fudge_delta := by
    intro h
    have : (k : ℚ) = k2 := mul_right_cancel₀ (ne_of_gt hδ) h
    exact hk (by exact_mod_cast this)
  have hfs : (k : ℚ) * fudge_delta + (k2 : ℚ) * fudge_delta < 1 := by
    rw [fudge_delta, mul_one_div, mul_one_div, div_add_div_same,
      div_lt_one (by positivity)]
    push_cast
    exact_mod_cast hsum
  rcases lt_trichotomy a b with h | h | h
  · have hc : (a : ℚ) + 1 ≤ b := by exact_mod_cast Int.add_one_le_iff.mpr h
    split_ifs at hx <;> linarith
  · subst h
    split_ifs at hx with ha
    · exact hkq (by linarith)
    · exact hkq (by linarith)
  · have hc : (b : ℚ) + 1 ≤ a := by exact_mod_cast Int.add_one_le_iff.mpr h
    split_ifs at hx <;> linarith

/-- Two deliveries with distinct fudge counts whose sum is below `2^20`
yield distinct fp64 points (they already differ in the x coordinate). -/
theorem applyPt_inj (p q : ℤ × ℤ) (k k2 : Nat) (hk : k ≠ k2)
    (hsum : k + k2 < 2 ^ 20) : applyPt p k ≠ applyPt q k2 := by
  intro heq
  simp only [applyPt, Prod.mk.injEq] at heq
  exact fudge_coord_inj p.1 q.1 k k2 hk hsum heq.1

theorem deliverContour_length (ipts : List (ℤ × ℤ)) :
    ∀ (l : List Nat) (k : Nat), (deliverContour ipts k l).length = l.length := by
  intro l
  induction l with
  | nil => intro k; rfl
  | cons v rest ih => intro k; simp [deliverContour, ih]

theorem deliverContour_append (ipts : List (ℤ × ℤ)) :
    ∀ (l1 l2 : List Nat) (k : Nat),
      deliverContour ipts k (l1 ++ l2) =
        deliverContour ipts k l1 ++ deliverContour ipts (k + l1.length) l2 := by
  intro l1
  induction l1 with
  | nil => intro l2 k; simp [deliverContour]
  | cons v rest ih =>
      intro l2 k
      rw [List.cons_append, deliverContour, deliverContour, ih, List.cons_append,
        List.length_cons]
      have hkk : k + 1 + rest.length = k + (rest.length + 1) := by omega
      rw [hkk]

theorem deliverContour_getD (ipts : List (ℤ × ℤ)) :
    ∀ (l : List Nat) (k i : Nat), i < l.length →
      (deliverContour ipts k l).getD i (0, 0) =
        applyPt (iptOf ipts (l.getD i 0)) (k + i) := by
  intro l
  induction l with
  | nil => intro k i hi; simp at hi
  | cons v rest ih =>
      intro k i hi
      cases i with
      | zero => simp [deliverContour]
      | succ n =>
          rw [deliverContour]
          simp only [List.getD_cons_succ]
          rw [ih (k + 1) n (by simpa using hi)]
          congr 1
          omega

theorem deliverPath_eq_flatten (ipts : List (ℤ × ℤ)) :
    ∀ (cs : List (List Nat)) (k : Nat),
      deliverPath ipts k cs = deliverContour ipts k cs.flatten := by
  intro cs
  induction cs with
  | nil => intro k; rfl
  | cons c rest ih =>
      intro k
      rw [deliverPath, List.flatten_cons, deliverContour_append, ih]

/-- C7 (amended).  Within one tesser invocation delivering at most `2^19`
vertices, the fp64 points delivered to the triangulator via
`PointHoard::apply` (one call per contour vertex, the fudge count
incremented on every delivered vertex) are pairwise distinct, even when
two delivered vertices have identical integer points.  (Without the size
bound the claim fails: two fudge counts whose sum is exactly `2^20`
bridge one grid unit, see the counterexample.) -/
theorem deliverPath_pairwise_distinct (ipts : List (ℤ × ℤ))
    (path : List (List Nat)) (hN : path.flatten.length ≤ 2 ^ 19) :
    (deliverPath ipts 0 path).Nodup := by
  rw [deliverPath_eq_flatten]
  show (deliverContour ipts 0 path.flatten).Pairwise (· ≠ ·)
  refine List.pairwise_iff_getElem.mpr ?_
  intro i j hi hj hij
  have hi2 : i < path.flatten.length := by
    rw [← deliverContour_length ipts path.flatten 0]
    exact hi
  have hj2 : j < path.flatten.length := by
    rw [← deliverContour_length ipts path.flatten 0]
    exact hj
  have e1 : (deliverContour ipts 0 path.flatten)[i] =
      applyPt (iptOf ipts (path.flatten.getD i 0)) (0 + i) := by
    rw [← List.getD_eq_getElem _ (0, 0), deliverContour_getD ipts path.flatten 0 i hi2]
  have e2 : (deliverContour ipts 0 path.flatten)[j] =
      applyPt (iptOf ipts (path.flatten.getD j 0)) (0 + j) := by
    rw [← List.getD_eq_getElem _ (0, 0), deliverContour_getD ipts path.flatten 0 j hj2]
  rw [e1, e2]
  have h19 : (2 : Nat) ^ 19 = 524288 := by norm_num
  have h20 : (2 : Nat) ^ 20 = 1048576 := by norm_num
  exact applyPt_inj _ _ _ _ (by omega) (by omega)

/-- Witness for `deliverPath_pairwise_distinct` on a two-vertex contour. -/
theorem deliverPath_pairwise_distinct_witness :
    (deliverPath [(1, 1), (2, 2)] 0 [[0, 1]]).Nodup :=
  deliverPath_pairwise_distinct [(1, 1), (2, 2)] [[0, 1]] (by norm_num)

/-- The integer points of the C7 counterexample: the two vertices
`(2^23 - 1, 2^23 - 1)` and `(2^23, 2^23)` sit on opposite sides of the
grid center, so their fudge signs are opposite. -/
def exBigIpts : List (ℤ × ℤ) := [(8388607, 8388607), (5, 5), (8388608, 8388608)]

/-- The C7 counterexample path: one simple contour of `2^20 + 1`
vertices; vertex `0` is delivered with fudge count `0` and vertex `2`
with fudge count `2^20`. -/
def exBigPath : List (List Nat) := [0 :: (List.replicate 1048575 1 ++ [2])]

/-- C7 counterexample.  As stated (with no bound on the number of
delivered vertices) the claim is false: on `exBigPath` the vertex with
integer point `(2^23 - 1, 2^23 - 1)` delivered at fudge count `0` and
the vertex with integer point `(2^23, 2^23)` delivered at fudge count
`2^20` produce the same fp64 point `(2^23 - 1, 2^23 - 1)`. -/
theorem deliverPath_counterexample :
    ¬ (deliverPath exBigIpts 0 exBigPath).Nodup := by
  intro h
  have hcoincide : applyPt (iptOf exBigIpts 0) 0 = applyPt (iptOf exBigIpts 2) 1048576 := by
    norm_num [applyPt, iptOf, exBigIpts, fudge_delta, box_dim, log2_box_dim]
  have hshape : deliverPath exBigIpts 0 exBigPath =
      applyPt (iptOf exBigIpts 0) 0 ::
        (deliverContour exBigIpts 1 (List.replicate 1048575 1) ++
          [applyPt (iptOf exBigIpts 2) 1048576]) := by
    obtain ⟨rep, hrep, hlenrep⟩ :
        ∃ rep : List Nat, List.replicate 1048575 1 = rep ∧ rep.length = 1048575 :=
      ⟨_, rfl, List.length_replicate _ _⟩
    rw [exBigPath, hrep, deliverPath, deliverPath, List.append_nil,
      deliverContour, deliverContour_append, hlenrep]
    have h1 : 1 + 1048575 = 1048576 := by norm_num
    rw [h1, deliverContour, deliverContour]
  rw [hshape] at h
  have hmem : applyPt (iptOf exBigIpts 0) 0 ∈
      deliverContour exBigIpts 1 (List.replicate 1048575 1) ++
        [applyPt (iptOf exBigIpts 2) 1048576] :=
    List.mem_append_right _
      (by rw [hcoincide]; exact List.mem_singleton.mpr rfl)
  exact (List.nodup_cons.mp h).1 hmem

/-! ### `SubsetPrivate::merge_winding_lists` and
`make_ready_from_children` -/

/-- `SubsetPrivate::merge_winding_lists`: insert both input lists into a
`std::set<int>` and copy it out — i.e. the sorted duplicate-free union. -/
def merge_winding_lists (inA inB : List ℤ) : List ℤ :=
  ((inA ++ inB).toFinset).sort (· ≤ ·)

/-- The winding-number structure of the subset tree: a leaf carries the
winding list computed by its own triangulation, an interior node's list
is produced by `merge_winding_lists` in `make_ready_from_children`. -/
inductive WTree where
  | leaf : List ℤ → WTree
  | node : WTree → WTree → WTree

/-- `m_winding_numbers` of a node after `make_ready`. -/
def winding_numbers : WTree → List ℤ
  | .leaf ws => ws
  | .node l r => merge_winding_lists (winding_numbers l) (winding_numbers r)

/-- The winding lists of the descendant leaves, left to right. -/
def leafLists : WTree → List (List ℤ)
  | .leaf ws => [ws]
  | .node l r => leafLists l ++ leafLists r

theorem mem_merge_winding_lists (inA inB : List ℤ) (w : ℤ) :
    w ∈ merge_winding_lists inA inB ↔ w ∈ inA ∨ w ∈ inB := by
  rw [merge_winding_lists, Finset.mem_sort, List.mem_toFinset, List.mem_append]

theorem winding_numbers_mem_leaves (t : WTree) :
    ∀ w, w ∈ winding_numbers t ↔ ∃ ws ∈ leafLists t, w ∈ ws := by
  induction t with
  | leaf ws => intro w; simp [winding_numbers, leafLists]
  | node l r ihl ihr =>
      intro w
      rw [winding_numbers, mem_merge_winding_lists, ihl, ihr]
      simp only [leafLists, List.mem_append]
      constructor
      · rintro (⟨ws, hws, hw⟩ | ⟨ws, hws, hw⟩)
        · exact ⟨ws, Or.inl hws, hw⟩
        · exact ⟨ws, Or.inr hws, hw⟩
      · rintro ⟨ws, hws | hws, hw⟩
        · exact Or.inl ⟨ws, hws, hw⟩
        · exact Or.inr ⟨ws, hws, hw⟩

/-- C8.  After `make_ready`, an interior node's `winding_numbers` is the
strictly sorted, duplicate-free union of its two children's lists — and
hence its membership agrees with the union of all its descendant
leaves' winding lists. -/
theorem make_ready_winding_union (l r : WTree) :
    winding_numbers (WTree.node l r) =
      merge_winding_lists (winding_numbers l) (winding_numbers r) ∧
    (winding_numbers (WTree.node l r)).Sorted (· < ·) ∧
    (winding_numbers (WTree.node l r)).Nodup ∧
    (∀ w, w ∈ winding_numbers (WTree.node l r) ↔
      w ∈ winding_numbers l ∨ w ∈ winding_numbers r) ∧
    (∀ w, w ∈ winding_numbers (WTree.node l r) ↔
      ∃ ws ∈ leafLists (WTree.node l r), w ∈ ws) := by
  refine ⟨rfl, ?_, ?_, ?_, winding_numbers_mem_leaves _⟩
  · rw [winding_numbers, merge_winding_lists]
    exact Finset.sort_sorted_lt _
  · rw [winding_numbers, merge_winding_lists]
    exact Finset.sort_nodup _ _
  · intro w
    rw [winding_numbers, mem_merge_winding_lists]

/-! ### `SubsetPrivate::make_ready` -/

/-- A subset-tree node for the realization state machine: `leaf d sp`
is a childless node holding its `SubPath` data `sp` and possibly
realized attribute data `d`; `node d l r` is an interior node.
Exactly one of \x7bunrealized, realized\x7d holds per the C++ invariant;
realization is the transition from `none` to `some`. -/
inductive SubsetNode (S D : Type) where
  | leaf : Option D → S → SubsetNode S D
  | node : Option D → SubsetNode S D → SubsetNode S D → SubsetNode S D

/-- The node's `m_painter_data` (realized attribute data). -/
def dataOf {S D : Type} : SubsetNode S D → Option D
  | .leaf d _ => d
  | .node d _ _ => d

/-- `SubsetPrivate::make_ready`: a no-op when `m_painter_data` is
non-null; otherwise realize from the sub path (leaf) or by making the
children ready and merging their data (interior).  `fromSub` stands for
`make_ready_from_sub_path`, `mergeD` for the attribute-data merge of
`make_ready_from_children`, `d0` is the `Option.getD` default (never
used: children are realized first). -/
def make_ready {S D : Type} (fromSub : S → D) (mergeD : D → D → D) (d0 : D) :
    SubsetNode S D → SubsetNode S D
  | .leaf none sp => .leaf (some (fromSub sp)) sp
  | .leaf (some d) sp => .leaf (some d) sp
  | .node none l r =>
      let l2 := make_ready fromSub mergeD d0 l
      let r2 := make_ready fromSub mergeD d0 r
      .node (some (mergeD ((dataOf l2).getD d0) ((dataOf r2).getD d0))) l2 r2
  | .node (some d) l r => .node (some d) l r

/-- `FilledPath::subset`: force realization and return the node's data
(paired with the post-call node state, since the C++ mutates in place). -/
def subset_call {S D : Type} (fromSub : S → D) (mergeD : D → D → D) (d0 : D)
    (t : SubsetNode S D) : Option D × SubsetNode S D :=
  let t2 := make_ready fromSub mergeD d0 t
  (dataOf t2, t2)

/-- C9.  `make_ready` realizes a node exactly once: after the call the
data is present; a node whose data is already present is left entirely
unchanged; the call is idempotent; and hence `subset(i)` called twice
returns equal data. -/
theorem make_ready_idempotent {S D : Type} (fromSub : S → D)
    (mergeD : D → D → D) (d0 : D) (t : SubsetNode S D) :
    (dataOf (make_ready fromSub mergeD d0 t)).isSome = true ∧
    (∀ d, dataOf t = some d → make_ready fromSub mergeD d0 t = t) ∧
    make_ready fromSub mergeD d0 (make_ready fromSub mergeD d0 t) =
      make_ready fromSub mergeD d0 t ∧
    (subset_call fromSub mergeD d0 (subset_call fromSub mergeD d0 t).2).1 =
      (subset_call fromSub mergeD d0 t).1 := by
  have hmain :
      (dataOf (make_ready fromSub mergeD d0 t)).isSome = true ∧
      (∀ d, dataOf t = some d → make_ready fromSub mergeD d0 t = t) ∧
      make_ready fromSub mergeD d0 (make_ready fromSub mergeD d0 t) =
        make_ready fromSub mergeD d0 t := by
    cases t with
    | leaf d sp =>
        cases d with
        | none => exact ⟨rfl, fun d h => by simp [dataOf] at h, rfl⟩
        | some d => exact ⟨rfl, fun d2 h => rfl, rfl⟩
    | node d l r =>
        cases d with
        | none => exact ⟨rfl, fun d h => by simp [dataOf] at h, rfl⟩
        | some d => exact ⟨rfl, fun d2 h => rfl, rfl⟩
  refine ⟨hmain.1, hmain.2.1, hmain.2.2, ?_⟩
  simp only [subset_call]
  rw [hmain.2.2]

/-- Witness for `make_ready_idempotent` at a concrete two-level tree. -/
theorem make_ready_idempotent_witness :
    make_ready (fun s : Nat => s) (fun a b => a + b) 0
        (make_ready (fun s : Nat => s) (fun a b => a + b) 0
          (SubsetNode.node none (SubsetNode.leaf none 1)
            (SubsetNode.leaf (some 2) 3))) =
      make_ready (fun s : Nat => s) (fun a b => a + b) 0
        (SubsetNode.node none (SubsetNode.leaf none 1)
          (SubsetNode.leaf (some 2) 3)) :=
  (make_ready_idempotent (fun s : Nat => s) (fun a b => a + b) 0
    (SubsetNode.node none (SubsetNode.leaf none 1)
      (SubsetNode.leaf (some 2) 3))).2.2.1

/-! ### `SubsetPrivate::select_subsets` -/

/-- The shape of the subset tree for subset selection; nodes are
identified by their path from the root (`false` = child 0,
`true` = child 1). -/
inductive CTree where
  | lf : CTree
  | nd : CTree → CTree → CTree

/-- Number of nodes (= number of subset IDs) in the tree. -/
def numNodes : CTree → Nat
  | .lf => 1
  | .nd l r => 1 + numNodes l + numNodes r

/-- `SubsetPrivate::select_subsets_all_unculled`: emit this node when
its size bounds are known and within the caller's caps (the oracle
`fits`, which is `false` for an interior node whose sizes are not yet
ready and is evaluated after the lazy realization of a leaf), else
descend into both children; a childless node that does not fit emits
nothing (the C++ asserts). -/
def select_all_unculled (fits : List Bool → Bool) :
    CTree → List Bool → List (List Bool)
  | t, p =>
    if fits p then [p]
    else
      match t with
      | .lf => []
      | .nd l r =>
          select_all_unculled fits l (p ++ [false]) ++
            select_all_unculled fits r (p ++ [true])

/-- `SubsetPrivate::select_subsets_implement`: prune a completely
clipped node (`clip p = 0`), take the whole node when completely
unclipped (`clip p = 1`) or childless, else recurse into both children.
The oracle `clip` stands for the floating-point rectangle clipping of
`clip_against_planes`. -/
def select_subsets_implement (clip : List Bool → Nat)
    (fits : List Bool → Bool) : CTree → List Bool → List (List Bool)
  | t, p =>
    if clip p = 0 then []
    else if clip p = 1 then select_all_unculled fits t p
    else
      match t with
      | .lf => select_all_unculled fits CTree.lf p
      | .nd l r =>
          select_subsets_implement clip fits l (p ++ [false]) ++
            select_subsets_implement clip fits r (p ++ [true])

/-- Two node paths that extend a common path into different children are
unrelated by ancestry. -/
theorem cross_paths_unrelated (p q1 q2 : List Bool)
    (h1 : p ++ [false] <+: q1) (h2 : p ++ [true] <+: q2) :
    ¬ q1 <+: q2 ∧ ¬ q2 <+: q1 := by
  constructor
  · intro h
    have hf : p ++ [false] <+: q2 := h1.trans h
    rcases List.prefix_or_prefix_of_prefix hf h2 with hc | hc
    · have := hc.eq_of_length (by simp)
      simpa using List.append_inj_right this rfl
    · have := hc.eq_of_length (by simp)
      simpa using List.append_inj_right this rfl
  · intro h
    have hf : p ++ [true] <+: q1 := h2.trans h
    rcases List.prefix_or_prefix_of_prefix hf h1 with hc | hc
    · have := hc.eq_of_length (by simp)
      simpa using List.append_inj_right this rfl
    · have := hc.eq_of_length (by simp)
      simpa using List.append_inj_right this rfl

theorem one_le_numNodes (t : CTree) : 1 ≤ numNodes t := by
  cases t with
  | lf => simp [numNodes]
  | nd l r => rw [numNodes]; omega

theorem select_all_unculled_spec (fits : List Bool → Bool) :
    ∀ (t : CTree) (p : List Bool),
      (∀ q ∈ select_all_unculled fits t p, p <+: q) ∧
      (select_all_unculled fits t p).Pairwise
        (fun a b => ¬ a <+: b ∧ ¬ b <+: a) ∧
      (select_all_unculled fits t p).length ≤ numNodes t := by
  intro t
  induction t with
  | lf =>
      intro p
      rw [select_all_unculled]
      split_ifs
      · exact ⟨by simp, by simp, by simp [numNodes]⟩
      · exact ⟨by simp, by simp, by simp⟩
  | nd l r ihl ihr =>
      intro p
      rw [select_all_unculled]
      split_ifs
      · exact ⟨by simp, by simp, le_trans (by simp) (one_le_numNodes _)⟩
      · obtain ⟨hl1, hl2, hl3⟩ := ihl (p ++ [false])
        obtain ⟨hr1, hr2, hr3⟩ := ihr (p ++ [true])
        refine ⟨?_, ?_, ?_⟩
        · intro q hq
          rcases List.mem_append.mp hq with h | h
          · exact (List.prefix_append p [false]).trans (hl1 q h)
          · exact (List.prefix_append p [true]).trans (hr1 q h)
        · rw [List.pairwise_append]
          exact ⟨hl2, hr2, fun a ha b hb =>
            cross_paths_unrelated p a b (hl1 a ha) (hr1 b hb)⟩
        · rw [List.length_append, numNodes]
          omega

/-- C10.  Every invocation of `select_subsets` emits subset IDs naming
tree nodes that are pairwise unrelated by ancestry (no emitted node is
an ancestor — a path prefix — of another), so the selected subtrees are
pairwise disjoint; and the number of emitted IDs never exceeds the
total number of subsets in the tree. -/
theorem select_subsets_spec (clip : List Bool → Nat)
    (fits : List Bool → Bool) :
    ∀ (t : CTree) (p : List Bool),
      (∀ q ∈ select_subsets_implement clip fits t p, p <+: q) ∧
      (select_subsets_implement clip fits t p).Pairwise
        (fun a b => ¬ a <+: b ∧ ¬ b <+: a) ∧
      (select_subsets_implement clip fits t p).length ≤ numNodes t := by
  intro t
  induction t with
  | lf =>
      intro p
      rw [select_subsets_implement]
      split_ifs
      · exact ⟨by simp, by simp, by simp⟩
      · exact select_all_unculled_spec fits CTree.lf p
      · exact select_all_unculled_spec fits CTree.lf p
  | nd l r ihl ihr =>
      intro p
      rw [select_subsets_implement]
      split_ifs
      · exact ⟨by simp, by simp, by simp⟩
      · exact select_all_unculled_spec fits (CTree.nd l r) p
      · obtain ⟨hl1, hl2, hl3⟩ := ihl (p ++ [false])
        obtain ⟨hr1, hr2, hr3⟩ := ihr (p ++ [true])
        refine ⟨?_, ?_, ?_⟩
        · intro q hq
          rcases List.mem_append.mp hq with h | h
          · exact (List.prefix_append p [false]).trans (hl1 q h)
          · exact (List.prefix_append p [true]).trans (hr1 q h)
        · rw [List.pairwise_append]
          exact ⟨hl2, hr2, fun a ha b hb =>
            cross_paths_unrelated p a b (hl1 a ha) (hr1 b hb)⟩
        · rw [List.length_append, numNodes]
          omega

end FilledPath
